import Mathlib

/-!
Verification of the wetware/stem head-following runtime.

Shallow embedding of the core of the `stem`/`atom` crates:

* the wire codec (`crates/stem/src/abi.rs`): the manual `(uint64, bytes)` /
  single-`bytes` decoders and the alloy-first composite `decode_head_return`;
* the finalizer (`crates/atom/src/finalizer.rs`): `ConfirmationDepth`,
  `FinalizerBuilder`, `feed`, `drain_eligible`, dedup by `(tx_hash, log_index)`;
* the indexer head-update rule (`crates/stem/src/indexer.rs`,
  `set_current_head_if_newer`);
* the membrane session layer (`crates/stem/src/membrane.rs`): `graft`,
  `check_epoch`, `poll_status`.

Bytes are modelled as `List Nat` (each entry a byte value), machine integers as
`Nat` with explicit `2 ^ 64` bounds where u64 overflow matters, fallible code as
`Except`, and the network as explicit oracles: an RPC interaction is a function
from the index of the call to its outcome.
-/

set_option maxHeartbeats 1000000
set_option maxRecDepth 10000

/-! ## Byte-level utilities -/

/-- Big-endian value of a byte list (models `uNN::from_be_bytes` on a slice). -/
def beNat (bs : List Nat) : Nat := bs.foldl (fun acc b => acc * 256 + b) 0

/-- The `k`-byte big-endian representation of `n % 256 ^ k`
    (models writing an integer into a fixed-width big-endian word). -/
def natToBeBytes : Nat → Nat → List Nat
  | 0, _ => []
  | k + 1, n => natToBeBytes k (n / 256) ++ [n % 256]

/-- `sliceAt data i n` models the Rust slice `&data[i..i+n]`. -/
def sliceAt (data : List Nat) (i n : Nat) : List Nat := (data.drop i).take n

theorem natToBeBytes_length (k n : Nat) : (natToBeBytes k n).length = k := by
  induction k generalizing n with
  | zero => rfl
  | succ k ih => simp [natToBeBytes, ih]

theorem beNat_append_singleton (xs : List Nat) (b : Nat) :
    beNat (xs ++ [b]) = beNat xs * 256 + b := by
  simp [beNat, List.foldl_append]

theorem beNat_natToBeBytes (k n : Nat) : beNat (natToBeBytes k n) = n % 256 ^ k := by
  induction k generalizing n with
  | zero => simp [natToBeBytes, beNat, Nat.mod_one]
  | succ k ih =>
    rw [natToBeBytes, beNat_append_singleton, ih, pow_succ]
    have hM : 0 < 256 ^ k := Nat.pos_pow_of_pos _ (by norm_num)
    have h1 : 256 * (n / 256) + n % 256 = n := Nat.div_add_mod n 256
    have h2 : 256 ^ k * (n / 256 / 256 ^ k) + n / 256 % 256 ^ k = n / 256 :=
      Nat.div_add_mod (n / 256) (256 ^ k)
    have h3 : n / 256 % 256 ^ k < 256 ^ k := Nat.mod_lt _ hM
    have h4 : n % 256 < 256 := Nat.mod_lt _ (by norm_num)
    have hsum : n = n / 256 % 256 ^ k * 256 + n % 256 + n / 256 / 256 ^ k * (256 ^ k * 256) := by
      conv_lhs => rw [← h1, ← h2]
      ring
    have hlt : n / 256 % 256 ^ k * 256 + n % 256 < 256 ^ k * 256 := by
      have hstep : n / 256 % 256 ^ k + 1 ≤ 256 ^ k := h3
      calc n / 256 % 256 ^ k * 256 + n % 256
          < (n / 256 % 256 ^ k + 1) * 256 := by omega
        _ ≤ 256 ^ k * 256 := Nat.mul_le_mul_right _ hstep
    conv_rhs => rw [hsum]
    rw [Nat.add_mul_mod_self_right, Nat.mod_eq_of_lt hlt]

theorem natToBeBytes_split (j k n : Nat) :
    natToBeBytes (j + k) n = natToBeBytes j (n / 256 ^ k) ++ natToBeBytes k n := by
  induction k generalizing n with
  | zero => simp [natToBeBytes]
  | succ k ih =>
    have : j + (k + 1) = (j + k) + 1 := by omega
    rw [this, natToBeBytes, ih, natToBeBytes]
    rw [Nat.div_div_eq_div_mul, show 256 * 256 ^ k = 256 ^ (k + 1) by rw [pow_succ]; ring,
      List.append_assoc]

theorem sliceAt_length (data : List Nat) (i n : Nat) (h : i + n ≤ data.length) :
    (sliceAt data i n).length = n := by
  simp only [sliceAt, List.length_take, List.length_drop]
  omega

/-- A slice entirely inside the left part of an append only sees the left part. -/
theorem sliceAt_append_inner (w r : List Nat) (i n : Nat) (h : i + n ≤ w.length) :
    sliceAt (w ++ r) i n = sliceAt w i n := by
  simp only [sliceAt]
  rw [List.drop_append_of_le_length (by omega)]
  rw [List.take_append_of_le_length (by simp [List.length_drop]; omega)]

/-- A slice entirely inside the right part of an append. -/
theorem sliceAt_append_right (w r : List Nat) (j n : Nat) :
    sliceAt (w ++ r) (w.length + j) n = sliceAt r j n := by
  simp only [sliceAt]
  rw [List.drop_append]

/-! ## Wire codec (`crates/stem/src/abi.rs`) -/

/-- Current head state, result of the `head()` view call (abi.rs lines 29-33). -/
structure CurrentHead where
  seq : Nat
  cid : List Nat
deriving DecidableEq

/-- Observed HeadUpdated event with chain metadata (abi.rs lines 17-26). -/
structure HeadUpdatedObserved where
  seq : Nat
  writer : List Nat
  cid : List Nat
  cid_hash : List Nat
  block_number : Nat
  tx_hash : List Nat
  log_index : Nat
deriving DecidableEq

/-- Manual `(uint64, bytes)` decode (abi.rs lines 115-130, `decode_head_return_manual`):
    `seq` from bytes 24..32, the cid offset from the last 4 bytes of word 1 (bytes 60..64),
    then a length word and the payload at the offset. -/
def decode_head_return_manual (data : List Nat) : Except String CurrentHead :=
  if data.length < 64 then .error "head() return too short"
  else
    let seq := beNat (sliceAt data 24 8)
    let cid_offset := beNat (sliceAt data 60 4)
    if data.length < cid_offset + 32 then .error "head() return too short for cid offset"
    else
      let cid_len := beNat (sliceAt data (cid_offset + 28) 4)
      if data.length < cid_offset + 32 + cid_len then .error "head() return too short for cid"
      else .ok { seq := seq, cid := sliceAt data (cid_offset + 32) cid_len }

/-- Manual decode of a single ABI `bytes` value (abi.rs lines 142-155,
    `decode_event_data_bytes_manual`): offset from bytes 28..32 of word 0,
    then a length word and the payload at the offset. -/
def decode_event_data_bytes_manual (data : List Nat) : Except String (List Nat) :=
  if data.length < 32 then .error "event data too short"
  else
    let cid_offset := beNat (sliceAt data 28 4)
    if data.length < cid_offset + 32 then .error "event data too short for cid offset"
    else
      let len := beNat (sliceAt data (cid_offset + 28) 4)
      if data.length < cid_offset + 32 + len then .error "event data too short for cid len"
      else .ok (sliceAt data (cid_offset + 32) len)

/-- Modelled from the external `alloy` sol-types non-validating decoder for
    `(uint64, bytes)` (the `HeadReturn::abi_decode(data, false)` call in abi.rs line 105;
    the library itself is outside this repository): word 0 truncated to u64, the full
    offset word followed, then a length word and the payload, with usize bounds on the
    offset and length and bounds checks against the buffer. -/
def alloyDecodeHeadReturn (data : List Nat) : Except String CurrentHead :=
  if data.length < 64 then .error "buffer overrun"
  else
    let seq := beNat (sliceAt data 24 8)
    let off := beNat (sliceAt data 32 32)
    if 2 ^ 64 ≤ off then .error "offset overflow"
    else if data.length < off + 32 then .error "buffer overrun"
    else
      let len := beNat (sliceAt data off 32)
      if 2 ^ 64 ≤ len then .error "length overflow"
      else if data.length < off + 32 + len then .error "buffer overrun"
      else .ok { seq := seq, cid := sliceAt data (off + 32) len }

/-- Modelled from the external `alloy` non-validating decoder for a single `bytes`
    value (the `Bytes::abi_decode(data, false)` call in abi.rs line 135). -/
def alloyDecodeBytes (data : List Nat) : Except String (List Nat) :=
  if data.length < 32 then .error "buffer overrun"
  else
    let off := beNat (sliceAt data 0 32)
    if 2 ^ 64 ≤ off then .error "offset overflow"
    else if data.length < off + 32 then .error "buffer overrun"
    else
      let len := beNat (sliceAt data off 32)
      if 2 ^ 64 ≤ len then .error "length overflow"
      else if data.length < off + 32 + len then .error "buffer overrun"
      else .ok (sliceAt data (off + 32) len)

/-- `decode_head_return` (abi.rs lines 103-112): try the alloy path, fall back to the
    manual decoder on any alloy error. -/
def decode_head_return (data : List Nat) : Except String CurrentHead :=
  match alloyDecodeHeadReturn data with
  | .ok h => .ok h
  | .error _ => decode_head_return_manual data

/-- `decode_event_data_bytes` (abi.rs lines 133-139): alloy first, then manual. -/
def decode_event_data_bytes (data : List Nat) : Except String (List Nat) :=
  match alloyDecodeBytes data with
  | .ok b => .ok b
  | .error _ => decode_event_data_bytes_manual data

/-- Standard-calling-convention encoding of `(uint64 seq, bytes cid)` (spec §6
    "View call return"): seq word, offset word 64, length word, payload right-padded
    to a 32-byte boundary.  This is the reference encoder the round-trip property
    (spec §8, property 9) is stated against. -/
def encodeHeadReturn (seq : Nat) (cid : List Nat) : List Nat :=
  natToBeBytes 32 seq ++ natToBeBytes 32 64 ++ natToBeBytes 32 cid.length ++ cid
    ++ List.replicate ((32 - cid.length % 32) % 32) 0

/-! ## Finalizer (`crates/atom/src/finalizer.rs`) -/

/-- Lowercase-hex rendering of a byte list (models `hex::encode`). -/
def hexEncode (bs : List Nat) : String :=
  String.mk (bs.foldr (fun b cs => Nat.digitChar (b / 16) :: Nat.digitChar (b % 16) :: cs) [])

/-- One finalized event, ready for JSON output (finalizer.rs lines 31-44). -/
structure FinalizedEvent where
  seq : Nat
  cid : List Nat
  cid_hash_hex : String
  block_number : Nat
  tx_hash_hex : String
  log_index : Nat
  writer : String
deriving DecidableEq

/-- `FinalizedEvent::from_observed` (finalizer.rs lines 46-57). -/
def FinalizedEvent.from_observed (ev : HeadUpdatedObserved) : FinalizedEvent :=
  { seq := ev.seq
    cid := ev.cid
    cid_hash_hex := hexEncode ev.cid_hash
    block_number := ev.block_number
    tx_hash_hex := hexEncode ev.tx_hash
    log_index := ev.log_index
    writer := hexEncode ev.writer }

/-- `FinalizerError` (finalizer.rs lines 60-68). -/
inductive FinalizerError where
  | http (msg : String)
  | rpc (msg : String)
  | decode (msg : String)
deriving DecidableEq

/-- `dedup_key` (finalizer.rs lines 70-72): `format!("{}:{}", hex::encode(tx_hash), log_index)`. -/
def dedup_key (ev : HeadUpdatedObserved) : String :=
  hexEncode ev.tx_hash ++ ":" ++ toString ev.log_index

/-- The key of an already-rendered finalized event; agrees with `dedup_key` of the
    observed event it came from. -/
def feKey (fe : FinalizedEvent) : String :=
  fe.tx_hash_hex ++ ":" ++ toString fe.log_index

/-- A `Strategy` trait object: `is_eligible(event, tip)` as a boolean predicate. -/
def Strategy : Type := HeadUpdatedObserved → Nat → Bool

/-- Largest u64 value. -/
def u64Max : Nat := 2 ^ 64 - 1

/-- `u64::saturating_add` on u64-ranged naturals. -/
def satAdd64 (a b : Nat) : Nat := min (a + b) u64Max

/-- `ConfirmationDepth(K)::is_eligible` (finalizer.rs lines 24-28):
    `tip >= ev.block_number.saturating_add(K)`. -/
def ConfirmationDepth.is_eligible (k : Nat) : Strategy :=
  fun ev tip => decide (satAdd64 ev.block_number k ≤ tip)

/-- Finalizer state (finalizer.rs lines 197-204).  The `reqwest::Client` carries no
    semantics here; the network is passed to `drain_eligible` as an oracle. -/
structure Finalizer where
  strategy : Strategy
  http_url : String
  contract_address : List Nat
  pending : List HeadUpdatedObserved
  emitted : Finset String

/-- `FinalizerBuilder` (finalizer.rs lines 128-163). -/
structure FinalizerBuilder where
  strategy : Option Strategy
  http_url : Option String
  contract_address : Option (List Nat)

def FinalizerBuilder.new : FinalizerBuilder :=
  { strategy := none, http_url := none, contract_address := none }

/-- `FinalizerBuilder::build` (finalizer.rs lines 165-187): default strategy
    `ConfirmationDepth(6)`, required `http_url` and `contract_address`, empty
    pending buffer and emitted set. -/
def FinalizerBuilder.build (b : FinalizerBuilder) : Except FinalizerError Finalizer :=
  match b.http_url with
  | none => .error (.decode "http_url required")
  | some url =>
    match b.contract_address with
    | none => .error (.decode "contract_address required")
    | some addr =>
      .ok { strategy := b.strategy.getD (ConfirmationDepth.is_eligible 6)
            http_url := url
            contract_address := addr
            pending := []
            emitted := ∅ }

/-- The `(block_number, log_index)` sort key used by `sort_by_key` in `feed` and
    `drain_eligible`; Rust tuple order is lexicographic. -/
def lexLe (p q : Nat × Nat) : Prop := p.1 < q.1 ∨ (p.1 = q.1 ∧ p.2 ≤ q.2)

instance (p q : Nat × Nat) : Decidable (lexLe p q) := by unfold lexLe; infer_instance

def evKey (ev : HeadUpdatedObserved) : Nat × Nat := (ev.block_number, ev.log_index)

def evKeyLe (a b : HeadUpdatedObserved) : Bool := decide (lexLe (evKey a) (evKey b))

/-- `Finalizer::feed` (finalizer.rs lines 207-212): push, then stable sort by
    `(block_number, log_index)`. -/
def Finalizer.feed (f : Finalizer) (ev : HeadUpdatedObserved) : Finalizer :=
  { f with pending := (f.pending ++ [ev]).mergeSort evKeyLe }

/-- The emission loop of `drain_eligible` (finalizer.rs lines 234-254).  `oracle j`
    is the outcome of the `j`-th `eth_call(head())` of this drain: either a transport
    error or the raw return bytes, which are then decoded with `decode_head_return`.
    Returns the updated emitted set (insertions made before a failure persist, since
    the Rust loop mutates `self.emitted` in place) and the output or the first error. -/
def drainGo (oracle : Nat → Except FinalizerError (List Nat)) :
    List HeadUpdatedObserved → Finset String → Nat →
    Finset String × Except FinalizerError (List FinalizedEvent)
  | [], em, _ => (em, .ok [])
  | ev :: rest, em, j =>
    if dedup_key ev ∈ em then drainGo oracle rest em j
    else
      match oracle j with
      | .error e => (em, .error e)
      | .ok bytes =>
        match decode_head_return bytes with
        | .error msg => (em, .error (.decode msg))
        | .ok head =>
          if head.seq = ev.seq ∧ head.cid = ev.cid then
            let r := drainGo oracle rest (insert (dedup_key ev) em) (j + 1)
            (r.1, r.2.map (fun out => FinalizedEvent.from_observed ev :: out))
          else drainGo oracle rest em (j + 1)

/-- `Finalizer::drain_eligible` (finalizer.rs lines 222-256): collect the
    strategy-eligible events in `(block_number, log_index)` order, remove them from
    pending unconditionally, then run the emission loop against the canonical head. -/
def Finalizer.drain_eligible (f : Finalizer) (tip : Nat)
    (oracle : Nat → Except FinalizerError (List Nat)) :
    Finalizer × Except FinalizerError (List FinalizedEvent) :=
  let eligible := (f.pending.filter (fun ev => f.strategy ev tip)).mergeSort evKeyLe
  let pending' := f.pending.filter (fun ev => !(f.strategy ev tip))
  let r := drainGo oracle eligible f.emitted 0
  ({ f with pending := pending', emitted := r.1 }, r.2)

/-- One call in the lifetime of a finalizer instance: a `feed` or a
    `drain_eligible` (with the network outcomes of that drain). -/
inductive FinOp where
  | feed (ev : HeadUpdatedObserved)
  | drain (tip : Nat) (oracle : Nat → Except FinalizerError (List Nat))

/-- Run a sequence of calls; the second component is the concatenation of the
    outputs of all successful `drain_eligible` calls. -/
def runOps : Finalizer → List FinOp → Finalizer × List FinalizedEvent
  | f, [] => (f, [])
  | f, FinOp.feed ev :: rest => runOps (f.feed ev) rest
  | f, FinOp.drain tip oracle :: rest =>
    let r := f.drain_eligible tip oracle
    let rr := runOps r.1 rest
    (rr.1, (match r.2 with | .ok out => out | .error _ => []) ++ rr.2)

/-! ## Indexer head rule (`crates/stem/src/indexer.rs`) -/

/-- `set_current_head_if_newer` (indexer.rs lines 430-443): overwrite the stored
    head iff it is absent or the candidate's seq is `>=` the stored seq.  Both the
    backfill path (line 416) and the subscription path (line 323) update through
    this function. -/
def set_current_head_if_newer (cur : Option CurrentHead) (cand : CurrentHead) :
    Option CurrentHead :=
  if (cur.map (fun h => decide (h.seq ≤ cand.seq))).getD true then some cand else cur

/-- seq of a possibly-absent stored head (absent reads as 0 for monotonicity). -/
def headSeq : Option CurrentHead → Nat
  | none => 0
  | some h => h.seq

/-! ## Membrane session layer (`crates/stem/src/membrane.rs`) -/

/-- Epoch value used by the membrane (membrane.rs lines 11-16). -/
structure Epoch where
  seq : Nat
  head : List Nat
  adopted_block : Nat
deriving DecidableEq

/-- A capnp transport-level error (`capnp::Error::failed`), carrying its message. -/
structure CapError where
  msg : String
deriving DecidableEq

/-- The capnp `Status` enum used by `poll_status` (values set in membrane.rs
    lines 143-146; the schema file is generated at build time). -/
inductive Status where
  | ok
  | unauthorized
  | internalError
  | staleEpoch
deriving DecidableEq

/-- `StatusPollerServer` (membrane.rs lines 122-125): the issuance epoch held by
    value.  The `watch::Receiver` is modelled by passing the channel's current
    epoch to each call (`receiver.borrow()` reads exactly that value). -/
structure StatusPollerServer where
  issuance_epoch : Epoch

/-- `StatusPollerServer::check_epoch` (membrane.rs lines 127-135). -/
def StatusPollerServer.check_epoch (p : StatusPollerServer) (current : Epoch) :
    Except CapError Unit :=
  if current.seq ≠ p.issuance_epoch.seq then
    .error ⟨"staleEpoch: session epoch no longer current"⟩
  else .ok ()

/-- `StatusPollerServer::poll_status` (membrane.rs lines 137-150): a check_epoch
    failure is mapped to the `Status::StaleEpoch` value and the RPC completes with
    `Promise::ok(())`. -/
def StatusPollerServer.poll_status (p : StatusPollerServer) (current : Epoch) :
    Except CapError Status :=
  match p.check_epoch current with
  | .ok () => .ok .ok
  | .error _ => .ok .staleEpoch

/-- `MembraneServer::graft` (membrane.rs lines 71-92): mint a session poller bound
    to the channel's current epoch at issuance time. -/
def graft (current : Epoch) : StatusPollerServer :=
  { issuance_epoch := current }

/-! ## Concrete sample data (used by witnesses and counterexamples) -/

def sampleAddr : List Nat := List.replicate 20 0

def sampleTx : List Nat := List.replicate 32 0

/-- A small observed event used in concrete runs. -/
def sampleEv : HeadUpdatedObserved :=
  { seq := 1
    writer := List.replicate 20 0
    cid := [1]
    cid_hash := List.replicate 32 0
    block_number := 5
    tx_hash := sampleTx
    log_index := 0 }

/-- Canonical head() return bytes whose decode matches `sampleEv`. -/
def headBytes1 : List Nat := encodeHeadReturn 1 [1]

/-- Network oracle whose every head() call matches `sampleEv`. -/
def oracleMatch : Nat → Except FinalizerError (List Nat) := fun _ => .ok headBytes1

/-- Network oracle whose every call fails at the transport level. -/
def oracleErr : Nat → Except FinalizerError (List Nat) := fun _ => .error (.rpc "boom")

/-- A finalizer with one pending event and a depth-0 strategy. -/
def f1 : Finalizer :=
  { strategy := ConfirmationDepth.is_eligible 0
    http_url := "http://localhost:8545"
    contract_address := sampleAddr
    pending := [sampleEv]
    emitted := ∅ }

/-- `f1` after a successful drain of `sampleEv`. -/
def f1Drained : Finalizer :=
  { f1 with pending := [], emitted := {dedup_key sampleEv} }

/-- `f1` after a drain whose first head() call failed: the eligible event is gone. -/
def f1ErrDrained : Finalizer := { f1 with pending := [] }

def out1 : List FinalizedEvent := [FinalizedEvent.from_observed sampleEv]

/-- A builder with no explicit strategy. -/
def b0 : FinalizerBuilder :=
  { strategy := none
    http_url := some "http://localhost:8545"
    contract_address := some sampleAddr }

/-- The finalizer `b0.build` produces. -/
def f0 : Finalizer :=
  { strategy := ConfirmationDepth.is_eligible 6
    http_url := "http://localhost:8545"
    contract_address := sampleAddr
    pending := []
    emitted := ∅ }

/-- Operation sequence: one feed, then one drain whose head() calls match. -/
def sampleOps : List FinOp := [FinOp.feed sampleEv, FinOp.drain 5 oracleMatch]

/-- An event whose block_number is u64::MAX, for the saturating-add edge case. -/
def evMax : HeadUpdatedObserved := { sampleEv with block_number := 2 ^ 64 - 1 }

/-- head() return with offset word 64 (the canonical layout for `(uint64, bytes)`). -/
def dataH64 : List Nat := encodeHeadReturn 7 [170]

/-- head() return with offset word 32: the length word coincides with the offset
    word, so a consistent buffer carries a 32-byte payload at byte 64. -/
def dataH32 : List Nat := natToBeBytes 32 1 ++ natToBeBytes 32 32 ++ List.replicate 32 7

/-- head() return whose declared cid length exceeds the buffer. -/
def dataHbad : List Nat := natToBeBytes 32 1 ++ natToBeBytes 32 64 ++ natToBeBytes 32 99

/-- head() return with offset word 96, well-formed at that offset. -/
def dataH96 : List Nat :=
  natToBeBytes 32 3 ++ natToBeBytes 32 96 ++ natToBeBytes 32 0 ++ natToBeBytes 32 1 ++ [8]

/-- event data with canonical offset word 32. -/
def dataE32 : List Nat := natToBeBytes 32 32 ++ natToBeBytes 32 2 ++ [9, 9] ++ List.replicate 30 0

/-- event data with offset word 64. -/
def dataE64 : List Nat := natToBeBytes 32 64 ++ List.replicate 32 0 ++ natToBeBytes 32 1 ++ [5]

/-- event data whose declared length exceeds the buffer. -/
def dataEbad : List Nat := natToBeBytes 32 32 ++ natToBeBytes 32 999

/-- event data with offset word 96, well-formed at that offset. -/
def dataE96 : List Nat := natToBeBytes 32 96 ++ List.replicate 64 0 ++ natToBeBytes 32 2 ++ [4, 4]

/-- The `(block_number, log_index)` ascending-order relation on finalized events. -/
def feLexLe (a b : FinalizedEvent) : Prop :=
  lexLe (a.block_number, a.log_index) (b.block_number, b.log_index)

/-! ## Helper lemmas -/

theorem feKey_from_observed (ev : HeadUpdatedObserved) :
    feKey (FinalizedEvent.from_observed ev) = dedup_key ev := rfl

theorem evKeyLe_trans (a b c : HeadUpdatedObserved) :
    evKeyLe a b → evKeyLe b c → evKeyLe a c := by
  simp only [evKeyLe, evKey, lexLe, decide_eq_true_eq]
  omega

theorem evKeyLe_total (a b : HeadUpdatedObserved) : evKeyLe a b || evKeyLe b a := by
  simp only [evKeyLe, evKey, lexLe, Bool.or_eq_true, decide_eq_true_eq]
  omega


/-- Insertions into the emitted set made before a failure persist; the set only grows. -/
theorem drainGo_emitted_mono (oracle : Nat → Except FinalizerError (List Nat)) :
    ∀ (l : List HeadUpdatedObserved) (em em' : Finset String) (j : Nat)
      (r : Except FinalizerError (List FinalizedEvent)),
      drainGo oracle l em j = (em', r) → em ⊆ em' := by
  intro l
  induction l with
  | nil =>
    intro em em' j r h
    rw [drainGo] at h
    cases h
    exact Finset.Subset.refl em
  | cons ev rest ih =>
    intro em em' j r h
    rw [drainGo] at h
    by_cases hmem : dedup_key ev ∈ em
    · rw [if_pos hmem] at h
      exact ih em em' j r h
    · rw [if_neg hmem] at h
      cases horacle : oracle j with
      | error e =>
        rw [horacle] at h
        simp only [] at h
        cases h
        exact Finset.Subset.refl em
      | ok bytes =>
        rw [horacle] at h
        simp only [] at h
        cases hdec : decode_head_return bytes with
        | error msg =>
          rw [hdec] at h
          simp only [] at h
          cases h
          exact Finset.Subset.refl em
        | ok head =>
          rw [hdec] at h
          simp only [] at h
          by_cases hmatch : head.seq = ev.seq ∧ head.cid = ev.cid
          · rw [if_pos hmatch] at h
            have h1 : (drainGo oracle rest (insert (dedup_key ev) em) (j + 1)).1 = em' :=
              congrArg Prod.fst h
            have h2 := ih (insert (dedup_key ev) em)
              (drainGo oracle rest (insert (dedup_key ev) em) (j + 1)).1 (j + 1)
              (drainGo oracle rest (insert (dedup_key ev) em) (j + 1)).2 rfl
            rw [h1] at h2
            exact (Finset.subset_insert _ _).trans h2
          · rw [if_neg hmatch] at h
            exact ih em em' (j + 1) r h

/-- Every emitted event's key lands in the final emitted set and was fresh before the
    drain, and the output of one drain loop has pairwise-distinct keys. -/
theorem drainGo_ok_spec (oracle : Nat → Except FinalizerError (List Nat)) :
    ∀ (l : List HeadUpdatedObserved) (em em' : Finset String) (j : Nat)
      (out : List FinalizedEvent),
      drainGo oracle l em j = (em', .ok out) →
      (∀ fe ∈ out, feKey fe ∈ em' ∧ feKey fe ∉ em) ∧
      out.Pairwise (fun a b => feKey a ≠ feKey b) := by
  intro l
  induction l with
  | nil =>
    intro em em' j out h
    rw [drainGo] at h
    cases h
    simp
  | cons ev rest ih =>
    intro em em' j out h
    rw [drainGo] at h
    by_cases hmem : dedup_key ev ∈ em
    · rw [if_pos hmem] at h
      exact ih em em' j out h
    · rw [if_neg hmem] at h
      cases horacle : oracle j with
      | error e =>
        rw [horacle] at h
        simp only [] at h
        cases h
      | ok bytes =>
        rw [horacle] at h
        simp only [] at h
        cases hdec : decode_head_return bytes with
        | error msg =>
          rw [hdec] at h
          simp only [] at h
          cases h
        | ok head =>
          rw [hdec] at h
          simp only [] at h
          by_cases hmatch : head.seq = ev.seq ∧ head.cid = ev.cid
          · rw [if_pos hmatch] at h
            simp only [Prod.mk.injEq] at h
            obtain ⟨hem, hmap⟩ := h
            cases hrec : (drainGo oracle rest (insert (dedup_key ev) em) (j + 1)).2 with
            | error e => rw [hrec] at hmap; cases hmap
            | ok out' =>
              rw [hrec] at hmap
              simp only [Except.map] at hmap
              cases hmap
              have hpair : drainGo oracle rest (insert (dedup_key ev) em) (j + 1) =
                  ((drainGo oracle rest (insert (dedup_key ev) em) (j + 1)).1, .ok out') := by
                rw [← hrec]
              obtain ⟨hmem', hpair'⟩ := ih (insert (dedup_key ev) em)
                (drainGo oracle rest (insert (dedup_key ev) em) (j + 1)).1 (j + 1) out' hpair
              have hsub : insert (dedup_key ev) em ⊆
                  (drainGo oracle rest (insert (dedup_key ev) em) (j + 1)).1 :=
                drainGo_emitted_mono oracle rest _ _ _ _ rfl
              subst hem
              constructor
              · intro fe hfe
                rcases List.mem_cons.mp hfe with hfe | hfe
                · subst hfe
                  refine ⟨hsub (Finset.mem_insert_self _ _), ?_⟩
                  rw [feKey_from_observed]
                  exact hmem
                · obtain ⟨h1, h2⟩ := hmem' fe hfe
                  exact ⟨h1, fun hc => h2 (Finset.mem_insert_of_mem hc)⟩
              · refine List.pairwise_cons.mpr ⟨?_, hpair'⟩
                intro fe hfe heq
                obtain ⟨_, h2⟩ := hmem' fe hfe
                rw [feKey_from_observed] at heq
                exact h2 (heq ▸ Finset.mem_insert_self _ _)
          · rw [if_neg hmatch] at h
            exact ih em em' (j + 1) out h

/-- The output of one drain loop is the image of a sublist of its input list. -/
theorem drainGo_ok_sublist (oracle : Nat → Except FinalizerError (List Nat)) :
    ∀ (l : List HeadUpdatedObserved) (em em' : Finset String) (j : Nat)
      (out : List FinalizedEvent),
      drainGo oracle l em j = (em', .ok out) →
      ∃ sub : List HeadUpdatedObserved,
        sub.Sublist l ∧ out = sub.map FinalizedEvent.from_observed := by
  intro l
  induction l with
  | nil =>
    intro em em' j out h
    rw [drainGo] at h
    cases h
    exact ⟨[], List.nil_sublist _, rfl⟩
  | cons ev rest ih =>
    intro em em' j out h
    rw [drainGo] at h
    by_cases hmem : dedup_key ev ∈ em
    · rw [if_pos hmem] at h
      obtain ⟨sub, hs, he⟩ := ih em em' j out h
      exact ⟨sub, hs.cons ev, he⟩
    · rw [if_neg hmem] at h
      cases horacle : oracle j with
      | error e =>
        rw [horacle] at h
        simp only [] at h
        cases h
      | ok bytes =>
        rw [horacle] at h
        simp only [] at h
        cases hdec : decode_head_return bytes with
        | error msg =>
          rw [hdec] at h
          simp only [] at h
          cases h
        | ok head =>
          rw [hdec] at h
          simp only [] at h
          by_cases hmatch : head.seq = ev.seq ∧ head.cid = ev.cid
          · rw [if_pos hmatch] at h
            simp only [Prod.mk.injEq] at h
            obtain ⟨hem, hmap⟩ := h
            cases hrec : (drainGo oracle rest (insert (dedup_key ev) em) (j + 1)).2 with
            | error e => rw [hrec] at hmap; cases hmap
            | ok out' =>
              rw [hrec] at hmap
              simp only [Except.map] at hmap
              cases hmap
              have hpair : drainGo oracle rest (insert (dedup_key ev) em) (j + 1) =
                  ((drainGo oracle rest (insert (dedup_key ev) em) (j + 1)).1, .ok out') := by
                rw [← hrec]
              obtain ⟨sub, hs, he⟩ := ih _ _ _ out' hpair
              exact ⟨ev :: sub, hs.cons₂ ev, by simp [he]⟩
          · rw [if_neg hmatch] at h
            obtain ⟨sub, hs, he⟩ := ih em em' (j + 1) out h
            exact ⟨sub, hs.cons ev, he⟩

/-- Every event in a drain's output was cross-checked: some head() call of this drain
    returned bytes that decode to exactly its `(seq, cid)`. -/
theorem drainGo_ok_matched (oracle : Nat → Except FinalizerError (List Nat)) :
    ∀ (l : List HeadUpdatedObserved) (em em' : Finset String) (j : Nat)
      (out : List FinalizedEvent),
      drainGo oracle l em j = (em', .ok out) →
      ∀ fe ∈ out, ∃ i bytes head, oracle i = .ok bytes ∧
        decode_head_return bytes = .ok head ∧ head.seq = fe.seq ∧ head.cid = fe.cid := by
  intro l
  induction l with
  | nil =>
    intro em em' j out h
    rw [drainGo] at h
    cases h
    simp
  | cons ev rest ih =>
    intro em em' j out h
    rw [drainGo] at h
    by_cases hmem : dedup_key ev ∈ em
    · rw [if_pos hmem] at h
      exact ih em em' j out h
    · rw [if_neg hmem] at h
      cases horacle : oracle j with
      | error e =>
        rw [horacle] at h
        simp only [] at h
        cases h
      | ok bytes =>
        rw [horacle] at h
        simp only [] at h
        cases hdec : decode_head_return bytes with
        | error msg =>
          rw [hdec] at h
          simp only [] at h
          cases h
        | ok head =>
          rw [hdec] at h
          simp only [] at h
          by_cases hmatch : head.seq = ev.seq ∧ head.cid = ev.cid
          · rw [if_pos hmatch] at h
            simp only [Prod.mk.injEq] at h
            obtain ⟨hem, hmap⟩ := h
            cases hrec : (drainGo oracle rest (insert (dedup_key ev) em) (j + 1)).2 with
            | error e => rw [hrec] at hmap; cases hmap
            | ok out' =>
              rw [hrec] at hmap
              simp only [Except.map] at hmap
              cases hmap
              have hpair : drainGo oracle rest (insert (dedup_key ev) em) (j + 1) =
                  ((drainGo oracle rest (insert (dedup_key ev) em) (j + 1)).1, .ok out') := by
                rw [← hrec]
              intro fe hfe
              rcases List.mem_cons.mp hfe with hfe | hfe
              · subst hfe
                exact ⟨j, bytes, head, horacle, hdec, hmatch.1, hmatch.2⟩
              · exact ih _ _ _ out' hpair fe hfe
          · rw [if_neg hmatch] at h
            exact ih em em' (j + 1) out h

/-- The pending buffer after any drain holds exactly the events the strategy judged
    ineligible at that tip (the `retain` on finalizer.rs lines 231-232). -/
theorem drain_eligible_pending (f : Finalizer) (tip : Nat)
    (oracle : Nat → Except FinalizerError (List Nat)) :
    (f.drain_eligible tip oracle).1.pending =
      f.pending.filter (fun ev => !(f.strategy ev tip)) := rfl

theorem drain_eligible_strategy (f : Finalizer) (tip : Nat)
    (oracle : Nat → Except FinalizerError (List Nat)) :
    (f.drain_eligible tip oracle).1.strategy = f.strategy := rfl

/-- The drain result as a `drainGo` pair equation, for any outcome. -/
theorem drain_eligible_go (f : Finalizer) (tip : Nat)
    (oracle : Nat → Except FinalizerError (List Nat)) (f' : Finalizer)
    (res : Except FinalizerError (List FinalizedEvent))
    (hd : f.drain_eligible tip oracle = (f', res)) :
    drainGo oracle ((f.pending.filter (fun ev => f.strategy ev tip)).mergeSort evKeyLe)
      f.emitted 0 = (f'.emitted, res) := by
  have h1 : (f.drain_eligible tip oracle).1 = f' := congrArg Prod.fst hd
  have ha : (drainGo oracle
      ((f.pending.filter (fun ev => f.strategy ev tip)).mergeSort evKeyLe) f.emitted 0).1 =
      f'.emitted := congrArg Finalizer.emitted h1
  have hb : (drainGo oracle
      ((f.pending.filter (fun ev => f.strategy ev tip)).mergeSort evKeyLe) f.emitted 0).2 =
      res := congrArg Prod.snd hd
  calc drainGo oracle
        ((f.pending.filter (fun ev => f.strategy ev tip)).mergeSort evKeyLe) f.emitted 0
      = ((drainGo oracle
          ((f.pending.filter (fun ev => f.strategy ev tip)).mergeSort evKeyLe) f.emitted 0).1,
         (drainGo oracle
          ((f.pending.filter (fun ev => f.strategy ev tip)).mergeSort evKeyLe) f.emitted 0).2) :=
        rfl
    _ = (f'.emitted, res) := by rw [ha, hb]

/-- The emitted set only grows across any drain, failed or not. -/
theorem drain_eligible_emitted_mono (f : Finalizer) (tip : Nat)
    (oracle : Nat → Except FinalizerError (List Nat)) (f' : Finalizer)
    (res : Except FinalizerError (List FinalizedEvent))
    (hd : f.drain_eligible tip oracle = (f', res)) :
    f.emitted ⊆ f'.emitted :=
  drainGo_emitted_mono oracle _ _ _ _ _ (drain_eligible_go f tip oracle f' res hd)

/-- Key bookkeeping for one successful drain. -/
theorem drain_eligible_ok_spec (f : Finalizer) (tip : Nat)
    (oracle : Nat → Except FinalizerError (List Nat)) (f' : Finalizer)
    (out : List FinalizedEvent)
    (hd : f.drain_eligible tip oracle = (f', .ok out)) :
    (∀ fe ∈ out, feKey fe ∈ f'.emitted ∧ feKey fe ∉ f.emitted) ∧
    out.Pairwise (fun a b => feKey a ≠ feKey b) :=
  drainGo_ok_spec oracle _ _ _ _ _ (drain_eligible_go f tip oracle f' (.ok out) hd)

theorem drain_eligible_ok_matched (f : Finalizer) (tip : Nat)
    (oracle : Nat → Except FinalizerError (List Nat)) (f' : Finalizer)
    (out : List FinalizedEvent)
    (hd : f.drain_eligible tip oracle = (f', .ok out)) :
    ∀ fe ∈ out, ∃ i bytes head, oracle i = .ok bytes ∧
      decode_head_return bytes = .ok head ∧ head.seq = fe.seq ∧ head.cid = fe.cid :=
  drainGo_ok_matched oracle _ _ _ _ _ (drain_eligible_go f tip oracle f' (.ok out) hd)

theorem runOps_feed (f : Finalizer) (ev : HeadUpdatedObserved) (rest : List FinOp) :
    runOps f (FinOp.feed ev :: rest) = runOps (f.feed ev) rest := rfl

theorem runOps_drain_fst (f : Finalizer) (tip : Nat)
    (oracle : Nat → Except FinalizerError (List Nat)) (rest : List FinOp) :
    (runOps f (FinOp.drain tip oracle :: rest)).1 =
      (runOps (f.drain_eligible tip oracle).1 rest).1 := rfl

theorem runOps_drain_snd (f : Finalizer) (tip : Nat)
    (oracle : Nat → Except FinalizerError (List Nat)) (rest : List FinOp) :
    (runOps f (FinOp.drain tip oracle :: rest)).2 =
      (match (f.drain_eligible tip oracle).2 with
        | .ok out => out
        | .error _ => []) ++ (runOps (f.drain_eligible tip oracle).1 rest).2 := rfl

/-- Lifetime bookkeeping: over any sequence of feeds and drains, the emitted set grows,
    every output key lands in the final emitted set and was fresh at the start, and the
    concatenated output has pairwise-distinct `(tx_hash, log_index)` keys. -/
theorem runOps_spec : ∀ (ops : List FinOp) (f : Finalizer),
    f.emitted ⊆ (runOps f ops).1.emitted ∧
    (∀ fe ∈ (runOps f ops).2, feKey fe ∈ (runOps f ops).1.emitted ∧ feKey fe ∉ f.emitted) ∧
    (runOps f ops).2.Pairwise (fun a b => feKey a ≠ feKey b) := by
  intro ops
  induction ops with
  | nil =>
    intro f
    exact ⟨Finset.Subset.refl _, by simp [runOps], by simp [runOps]⟩
  | cons op rest ih =>
    intro f
    cases op with
    | feed ev =>
      rw [runOps_feed]
      exact ih (f.feed ev)
    | drain tip oracle =>
      obtain ⟨ihsub, ihmem, ihpair⟩ := ih (f.drain_eligible tip oracle).1
      have hmono : f.emitted ⊆ (f.drain_eligible tip oracle).1.emitted :=
        drain_eligible_emitted_mono f tip oracle (f.drain_eligible tip oracle).1
          (f.drain_eligible tip oracle).2 rfl
      rw [runOps_drain_fst, runOps_drain_snd] at *
      cases hres : (f.drain_eligible tip oracle).2 with
      | error e =>
        simp only [List.nil_append]
        exact ⟨hmono.trans ihsub,
          fun fe hfe => ⟨(ihmem fe hfe).1, fun hc => (ihmem fe hfe).2 (hmono hc)⟩,
          ihpair⟩
      | ok out =>
        simp only []
        have hd : f.drain_eligible tip oracle =
            ((f.drain_eligible tip oracle).1, .ok out) := by
          rw [← hres]
        obtain ⟨hkeys, hpairout⟩ :=
          drain_eligible_ok_spec f tip oracle (f.drain_eligible tip oracle).1 out hd
        refine ⟨hmono.trans ihsub, ?_, ?_⟩
        · intro fe hfe
          rcases List.mem_append.mp hfe with hfe | hfe
          · obtain ⟨h1, h2⟩ := hkeys fe hfe
            exact ⟨ihsub h1, h2⟩
          · obtain ⟨h1, h2⟩ := ihmem fe hfe
            exact ⟨h1, fun hc => h2 (hmono hc)⟩
        · rw [List.pairwise_append]
          refine ⟨hpairout, ihpair, ?_⟩
          intro a ha b hb heq
          obtain ⟨ha1, _⟩ := hkeys a ha
          obtain ⟨_, hb2⟩ := ihmem b hb
          exact hb2 (heq ▸ ha1)

/-- In a list with pairwise-distinct keys, at most one element carries any given
    `(tx_hash, log_index)` pair. -/
theorem filter_key_length_le_one (l : List FinalizedEvent)
    (hp : l.Pairwise (fun a b => feKey a ≠ feKey b)) (txh : String) (li : Nat) :
    (l.filter (fun fe => fe.tx_hash_hex == txh && fe.log_index == li)).length ≤ 1 := by
  induction l with
  | nil => simp
  | cons a l ih =>
    obtain ⟨ha, hl⟩ := List.pairwise_cons.mp hp
    by_cases hpa : (a.tx_hash_hex == txh && a.log_index == li) = true
    · rw [List.filter_cons, if_pos hpa]
      have hnil : l.filter (fun fe => fe.tx_hash_hex == txh && fe.log_index == li) = [] := by
        rw [List.filter_eq_nil_iff]
        intro fe hfe hpe
        simp only [Bool.and_eq_true, beq_iff_eq] at hpa hpe
        have hkey : feKey fe = feKey a := by
          simp only [feKey, hpa.1, hpa.2, hpe.1, hpe.2]
        exact ha fe hfe hkey.symm
      rw [hnil]
      simp
    · rw [List.filter_cons, if_neg hpa]
      exact ih hl

/-- Extract the middle run of an append: the slice starting right after `pre`,
    of exactly `w`'s length, is `w`. -/
theorem sliceAt_mid (pre w r : List Nat) (i n : Nat)
    (hi : pre.length = i) (hn : w.length = n) :
    sliceAt (pre ++ (w ++ r)) i n = w := by
  subst hi
  subst hn
  simp only [sliceAt]
  rw [List.drop_left, List.take_left]

/-- The modelled alloy decoder inverts the standard encoding of `(uint64, bytes)`. -/
theorem alloyDecodeHeadReturn_encode (seq : Nat) (cid : List Nat)
    (h1 : seq < 2 ^ 64) (h2 : cid.length < 2 ^ 64) :
    alloyDecodeHeadReturn (encodeHeadReturn seq cid) = .ok { seq := seq, cid := cid } := by
  have hp256 : (256 : Nat) ^ 32 = 2 ^ 256 := by norm_num
  have hlen : 96 + cid.length ≤ (encodeHeadReturn seq cid).length := by
    simp only [encodeHeadReturn, List.length_append, natToBeBytes_length,
      List.length_replicate]
    omega
  have h32seq : natToBeBytes 32 seq = natToBeBytes 24 (seq / 256 ^ 8) ++ natToBeBytes 8 seq :=
    natToBeBytes_split 24 8 seq
  have hassoc0 : encodeHeadReturn seq cid =
      natToBeBytes 24 (seq / 256 ^ 8) ++ (natToBeBytes 8 seq ++ (natToBeBytes 32 64 ++
        (natToBeBytes 32 cid.length ++
          (cid ++ List.replicate ((32 - cid.length % 32) % 32) 0)))) := by
    simp [encodeHeadReturn, h32seq, List.append_assoc]
  have hassoc1 : encodeHeadReturn seq cid =
      natToBeBytes 32 seq ++ (natToBeBytes 32 64 ++ (natToBeBytes 32 cid.length ++
        (cid ++ List.replicate ((32 - cid.length % 32) % 32) 0))) := by
    simp [encodeHeadReturn, List.append_assoc]
  have hassoc2 : encodeHeadReturn seq cid =
      (natToBeBytes 32 seq ++ natToBeBytes 32 64) ++ (natToBeBytes 32 cid.length ++
        (cid ++ List.replicate ((32 - cid.length % 32) % 32) 0)) := by
    simp [encodeHeadReturn, List.append_assoc]
  have hassoc3 : encodeHeadReturn seq cid =
      ((natToBeBytes 32 seq ++ natToBeBytes 32 64) ++ natToBeBytes 32 cid.length) ++
        (cid ++ List.replicate ((32 - cid.length % 32) % 32) 0) := by
    simp [encodeHeadReturn, List.append_assoc]
  have hseqslice : sliceAt (encodeHeadReturn seq cid) 24 8 = natToBeBytes 8 seq := by
    rw [hassoc0]
    exact sliceAt_mid _ _ _ _ _ (natToBeBytes_length 24 _) (natToBeBytes_length 8 _)
  have hoffslice : sliceAt (encodeHeadReturn seq cid) 32 32 = natToBeBytes 32 64 := by
    rw [hassoc1]
    exact sliceAt_mid _ _ _ _ _ (natToBeBytes_length 32 _) (natToBeBytes_length 32 _)
  have hlenslice : sliceAt (encodeHeadReturn seq cid) 64 32 = natToBeBytes 32 cid.length := by
    rw [hassoc2]
    refine sliceAt_mid _ _ _ _ _ ?_ (natToBeBytes_length 32 _)
    simp [natToBeBytes_length]
  have hpayslice : sliceAt (encodeHeadReturn seq cid) 96 cid.length = cid := by
    rw [hassoc3]
    refine sliceAt_mid _ _ _ _ _ ?_ rfl
    simp [natToBeBytes_length]
  have hseqv : beNat (sliceAt (encodeHeadReturn seq cid) 24 8) = seq := by
    rw [hseqslice, beNat_natToBeBytes]
    have h8 : (256 : Nat) ^ 8 = 2 ^ 64 := by norm_num
    rw [h8]
    exact Nat.mod_eq_of_lt h1
  have hoffv : beNat (sliceAt (encodeHeadReturn seq cid) 32 32) = 64 := by
    rw [hoffslice, beNat_natToBeBytes]
    exact Nat.mod_eq_of_lt (lt_of_lt_of_le (by norm_num)
      (Nat.le_self_pow (by norm_num) 256))
  have hlenv : beNat (sliceAt (encodeHeadReturn seq cid) 64 32) = cid.length := by
    rw [hlenslice, beNat_natToBeBytes]
    refine Nat.mod_eq_of_lt (lt_of_lt_of_le h2 ?_)
    rw [hp256]
    exact Nat.pow_le_pow_right (by norm_num) (by norm_num)
  have c1 : ¬((encodeHeadReturn seq cid).length < 64) := by omega
  have c2 : ¬(2 ^ 64 ≤ beNat (sliceAt (encodeHeadReturn seq cid) 32 32)) := by
    rw [hoffv]; norm_num
  have c3 : ¬((encodeHeadReturn seq cid).length <
      beNat (sliceAt (encodeHeadReturn seq cid) 32 32) + 32) := by
    rw [hoffv]; omega
  have c4 : ¬(2 ^ 64 ≤ beNat (sliceAt (encodeHeadReturn seq cid)
      (beNat (sliceAt (encodeHeadReturn seq cid) 32 32)) 32)) := by
    rw [hoffv, hlenv]; omega
  have c5 : ¬((encodeHeadReturn seq cid).length <
      beNat (sliceAt (encodeHeadReturn seq cid) 32 32) + 32 +
      beNat (sliceAt (encodeHeadReturn seq cid)
        (beNat (sliceAt (encodeHeadReturn seq cid) 32 32)) 32)) := by
    rw [hoffv, hlenv]; omega
  simp only [alloyDecodeHeadReturn]
  rw [if_neg c1, if_neg c2, if_neg c3, if_neg c4, if_neg c5]
  rw [hseqv, hoffv, hlenv]
  rw [show (64 : Nat) + 32 = 96 by norm_num, hpayslice]

/-- The manual head decoder succeeds at any in-bounds offset. -/
theorem decode_head_return_manual_ok (data : List Nat)
    (h64 : 64 ≤ data.length)
    (hl : beNat (sliceAt data 60 4) + 32 +
        beNat (sliceAt data (beNat (sliceAt data 60 4) + 28) 4) ≤ data.length) :
    decode_head_return_manual data = .ok
      { seq := beNat (sliceAt data 24 8)
        cid := sliceAt data (beNat (sliceAt data 60 4) + 32)
          (beNat (sliceAt data (beNat (sliceAt data 60 4) + 28) 4)) } := by
  have c1 : ¬(data.length < 64) := by omega
  have c2 : ¬(data.length < beNat (sliceAt data 60 4) + 32) := by omega
  have c3 : ¬(data.length < beNat (sliceAt data 60 4) + 32 +
      beNat (sliceAt data (beNat (sliceAt data 60 4) + 28) 4)) := by omega
  simp only [decode_head_return_manual]
  rw [if_neg c1, if_neg c2, if_neg c3]

/-- The manual head decoder rejects a declared length exceeding the buffer. -/
theorem decode_head_return_manual_err (data : List Nat)
    (h64 : 64 ≤ data.length)
    (ho : beNat (sliceAt data 60 4) + 32 ≤ data.length)
    (hl : data.length < beNat (sliceAt data 60 4) + 32 +
        beNat (sliceAt data (beNat (sliceAt data 60 4) + 28) 4)) :
    decode_head_return_manual data = .error "head() return too short for cid" := by
  have c1 : ¬(data.length < 64) := by omega
  have c2 : ¬(data.length < beNat (sliceAt data 60 4) + 32) := by omega
  simp only [decode_head_return_manual]
  rw [if_neg c1, if_neg c2, if_pos hl]

/-- The manual event-data decoder succeeds at any in-bounds offset. -/
theorem decode_event_data_bytes_manual_ok (data : List Nat)
    (h32 : 32 ≤ data.length)
    (hl : beNat (sliceAt data 28 4) + 32 +
        beNat (sliceAt data (beNat (sliceAt data 28 4) + 28) 4) ≤ data.length) :
    decode_event_data_bytes_manual data = .ok
      (sliceAt data (beNat (sliceAt data 28 4) + 32)
        (beNat (sliceAt data (beNat (sliceAt data 28 4) + 28) 4))) := by
  have c1 : ¬(data.length < 32) := by omega
  have c2 : ¬(data.length < beNat (sliceAt data 28 4) + 32) := by omega
  have c3 : ¬(data.length < beNat (sliceAt data 28 4) + 32 +
      beNat (sliceAt data (beNat (sliceAt data 28 4) + 28) 4)) := by omega
  simp only [decode_event_data_bytes_manual]
  rw [if_neg c1, if_neg c2, if_neg c3]

/-- The manual event-data decoder rejects a declared length exceeding the buffer. -/
theorem decode_event_data_bytes_manual_err (data : List Nat)
    (h32 : 32 ≤ data.length)
    (ho : beNat (sliceAt data 28 4) + 32 ≤ data.length)
    (hl : data.length < beNat (sliceAt data 28 4) + 32 +
        beNat (sliceAt data (beNat (sliceAt data 28 4) + 28) 4)) :
    decode_event_data_bytes_manual data = .error "event data too short for cid len" := by
  have c1 : ¬(data.length < 32) := by omega
  have c2 : ¬(data.length < beNat (sliceAt data 28 4) + 32) := by omega
  simp only [decode_event_data_bytes_manual]
  rw [if_neg c1, if_neg c2, if_pos hl]

/-- One head update never decreases the stored seq. -/
theorem set_current_head_if_newer_step (cur : Option CurrentHead) (cand : CurrentHead) :
    headSeq cur ≤ headSeq (set_current_head_if_newer cur cand) := by
  cases cur with
  | none => simp [set_current_head_if_newer, headSeq]
  | some h =>
    by_cases hle : h.seq ≤ cand.seq
    · simp [set_current_head_if_newer, headSeq, hle]
    · simp [set_current_head_if_newer, headSeq, hle]

theorem scanl_head_eq (f : Option CurrentHead → CurrentHead → Option CurrentHead)
    (b : Option CurrentHead) (l : List CurrentHead) :
    (List.scanl f b l).head? = some b := by
  cases l <;> simp [List.scanl_nil, List.scanl_cons]

/-- The stored-head seq trace is non-decreasing over any candidate sequence. -/
theorem scanl_head_chain (init : Option CurrentHead) (cands : List CurrentHead) :
    List.Chain' (fun a b => headSeq a ≤ headSeq b)
      (List.scanl set_current_head_if_newer init cands) := by
  induction cands generalizing init with
  | nil => simp [List.scanl_nil]
  | cons c cs ih =>
    rw [List.scanl_cons]
    simp only [List.singleton_append]
    refine List.chain'_cons'.mpr ⟨?_, ih (set_current_head_if_newer init c)⟩
    intro y hy
    rw [scanl_head_eq] at hy
    cases hy
    exact set_current_head_if_newer_step init c

/-- Decoding the matching oracle's bytes yields `sampleEv`'s `(seq, cid)`. -/
theorem decode_headBytes1 : decode_head_return headBytes1 = .ok { seq := 1, cid := [1] } := by
  rfl

/-- Building `b0` (no explicit strategy) yields `f0` with `ConfirmationDepth(6)`. -/
theorem b0_build : b0.build = .ok f0 := rfl

/-- Concrete successful drain: `sampleEv` is eligible, matches the canonical head,
    and is emitted; pending empties and its key is recorded. -/
theorem f1_drain_ok : f1.drain_eligible 5 oracleMatch = (f1Drained, .ok out1) := by
  have hfilter : f1.pending.filter (fun ev => f1.strategy ev 5) = [sampleEv] := by decide
  simp only [Finalizer.drain_eligible]
  rw [hfilter, List.mergeSort_singleton]
  rfl

/-- Concrete failed drain: the head() call fails, the drain errors, and the eligible
    event has already been removed from pending without being emitted. -/
theorem f1_drain_err : f1.drain_eligible 5 oracleErr = (f1ErrDrained, .error (.rpc "boom")) := by
  have hfilter : f1.pending.filter (fun ev => f1.strategy ev 5) = [sampleEv] := by decide
  simp only [Finalizer.drain_eligible]
  rw [hfilter, List.mergeSort_singleton]
  rfl

/-! ## Claims -/

/-- Claim C1: for any Finalizer built by FinalizerBuilder and any sequence of feed and
    drain_eligible calls, each `(tx_hash, log_index)` pair appears at most once across
    the concatenation of all drain_eligible outputs over the lifetime of the instance. -/
theorem c1_at_most_once_emission (b : FinalizerBuilder) (f : Finalizer)
    (_hb : b.build = .ok f) (ops : List FinOp) (txh : String) (li : Nat) :
    ((runOps f ops).2.filter
      (fun fe => fe.tx_hash_hex == txh && fe.log_index == li)).length ≤ 1 := by
  obtain ⟨-, -, hpair⟩ := runOps_spec ops f
  exact filter_key_length_le_one _ hpair txh li

theorem c1_at_most_once_emission_witness :
    b0.build = .ok f0 ∧
    ((runOps f0 sampleOps).2.filter
      (fun fe => fe.tx_hash_hex == hexEncode sampleTx && fe.log_index == 0)).length ≤ 1 :=
  ⟨b0_build, c1_at_most_once_emission b0 f0 b0_build sampleOps (hexEncode sampleTx) 0⟩

/-- Claim C2: if no head() response obtained during a drain decodes to a given
    `(seq, cid)`, then no event with that `(seq, cid)` appears in the drain's output,
    even when the strategy deems it eligible. -/
theorem c2_canonical_crosscheck (f : Finalizer) (tip : Nat)
    (oracle : Nat → Except FinalizerError (List Nat)) (f' : Finalizer)
    (out : List FinalizedEvent)
    (hd : f.drain_eligible tip oracle = (f', .ok out))
    (seq0 : Nat) (cid0 : List Nat)
    (hno : ∀ i bytes head, oracle i = .ok bytes → decode_head_return bytes = .ok head →
      ¬(head.seq = seq0 ∧ head.cid = cid0)) :
    ∀ fe ∈ out, ¬(fe.seq = seq0 ∧ fe.cid = cid0) := by
  intro fe hfe hcontra
  obtain ⟨i, bytes, head, hi, hdec, hs, hc⟩ :=
    drain_eligible_ok_matched f tip oracle f' out hd fe hfe
  exact hno i bytes head hi hdec ⟨hs.trans hcontra.1, hc.trans hcontra.2⟩

theorem c2_canonical_crosscheck_witness :
    f1.drain_eligible 5 oracleMatch = (f1Drained, .ok out1) ∧
    ¬((FinalizedEvent.from_observed sampleEv).seq = 9 ∧
      (FinalizedEvent.from_observed sampleEv).cid = [9]) := by
  refine ⟨f1_drain_ok, ?_⟩
  refine c2_canonical_crosscheck f1 5 oracleMatch f1Drained out1 f1_drain_ok 9 [9] ?_
    (FinalizedEvent.from_observed sampleEv) (List.mem_singleton.mpr rfl)
  intro i bytes head hi hdec
  simp only [oracleMatch, Except.ok.injEq] at hi
  subst hi
  rw [decode_headBytes1] at hdec
  cases hdec
  decide

/-- Claim C5 counterexample: with one pending, strategy-eligible, never-emitted event
    and a first head() call that fails, drain_eligible returns the error but the event
    has been removed from the pending buffer: it is lost and a retry cannot recover
    it, and the buffer shrank rather than grew. -/
theorem c5_eligible_lost_on_error :
    sampleEv ∈ f1.pending ∧
    f1.drain_eligible 5 oracleErr = (f1ErrDrained, .error (.rpc "boom")) ∧
    f1ErrDrained.pending = [] ∧
    f1ErrDrained.emitted = ∅ :=
  ⟨by decide, f1_drain_err, rfl, rfl⟩

/-- Claim C5 (amended): when drain_eligible fails, the pending buffer retains exactly
    the strategy-ineligible events — strategy-eligible ones are removed even though
    unemitted and are lost — the emitted set never shrinks, and every ineligible
    event remains pending, so only those are recoverable by retrying. -/
theorem c5_error_state_amended (f : Finalizer) (tip : Nat)
    (oracle : Nat → Except FinalizerError (List Nat)) (f' : Finalizer)
    (e : FinalizerError) (hd : f.drain_eligible tip oracle = (f', .error e)) :
    f'.pending = f.pending.filter (fun ev => !(f.strategy ev tip)) ∧
    f.emitted ⊆ f'.emitted ∧
    ∀ ev ∈ f.pending, f.strategy ev tip = false → ev ∈ f'.pending := by
  have h1 : (f.drain_eligible tip oracle).1 = f' := congrArg Prod.fst hd
  refine ⟨?_, drain_eligible_emitted_mono f tip oracle f' (.error e) hd, ?_⟩
  · rw [← h1]
    exact drain_eligible_pending f tip oracle
  · intro ev hev hinelig
    rw [← h1, drain_eligible_pending]
    simp [List.mem_filter, hev, hinelig]

theorem c5_error_state_amended_witness :
    f1ErrDrained.pending = f1.pending.filter (fun ev => !(f1.strategy ev 5)) ∧
    f1.emitted ⊆ f1ErrDrained.emitted :=
  ⟨(c5_error_state_amended f1 5 oracleErr f1ErrDrained (.rpc "boom") f1_drain_err).1,
   (c5_error_state_amended f1 5 oracleErr f1ErrDrained (.rpc "boom") f1_drain_err).2.1⟩

/-- Claim C6: after a successful drain_eligible(tip), the output is in ascending
    `(block_number, log_index)` order, and the pending buffer holds exactly the
    previously pending events whose strategy predicate was false at tip; every
    predicate-true event is removed regardless of the canonical cross-check. -/
theorem c6_drain_sorted_and_pending_filtered (f : Finalizer) (tip : Nat)
    (oracle : Nat → Except FinalizerError (List Nat)) (f' : Finalizer)
    (out : List FinalizedEvent)
    (hd : f.drain_eligible tip oracle = (f', .ok out)) :
    out.Pairwise feLexLe ∧
    f'.pending = f.pending.filter (fun ev => !(f.strategy ev tip)) := by
  constructor
  · obtain ⟨sub, hsub, hout⟩ := drainGo_ok_sublist oracle _ _ _ _ _
      (drain_eligible_go f tip oracle f' (.ok out) hd)
    have hsorted : ((f.pending.filter (fun ev => f.strategy ev tip)).mergeSort
        evKeyLe).Pairwise (fun a b => evKeyLe a b) :=
      List.sorted_mergeSort evKeyLe_trans evKeyLe_total _
    rw [hout, List.pairwise_map]
    refine (List.Pairwise.sublist hsub hsorted).imp ?_
    intro a b hab
    have hlex : lexLe (evKey a) (evKey b) := of_decide_eq_true hab
    exact hlex
  · have h1 : (f.drain_eligible tip oracle).1 = f' := congrArg Prod.fst hd
    rw [← h1]
    exact drain_eligible_pending f tip oracle

theorem c6_drain_sorted_and_pending_filtered_witness :
    out1.Pairwise feLexLe ∧
    f1Drained.pending = f1.pending.filter (fun ev => !(f1.strategy ev 5)) :=
  ⟨(c6_drain_sorted_and_pending_filtered f1 5 oracleMatch f1Drained out1 f1_drain_ok).1,
   (c6_drain_sorted_and_pending_filtered f1 5 oracleMatch f1Drained out1 f1_drain_ok).2⟩

/-- Claim C3 (code-bug evidence): with issuance seq 1 and the channel now at seq 2,
    `check_epoch` does build the `staleEpoch` transport error, but `poll_status`
    swallows it and completes the RPC successfully carrying the `Status.staleEpoch`
    value — the call does not fail as the specification requires; with an unchanged
    epoch the call returns `Status.ok`. -/
theorem c3_poll_status_returns_stale_value :
    (graft { seq := 1, head := [104], adopted_block := 100 }).poll_status
        { seq := 2, head := [104, 105], adopted_block := 101 } = .ok .staleEpoch ∧
    (graft { seq := 1, head := [104], adopted_block := 100 }).check_epoch
        { seq := 2, head := [104, 105], adopted_block := 101 } =
      .error { msg := "staleEpoch: session epoch no longer current" } ∧
    (graft { seq := 1, head := [104], adopted_block := 100 }).poll_status
        { seq := 1, head := [104], adopted_block := 100 } = .ok .ok :=
  ⟨rfl, rfl, rfl⟩

/-- Claim C4 counterexample: at block_number = 2^64 - 1 and K = 1 the u64 addition
    overflows, yet with tip = 2^64 - 1 the saturating comparison makes the event
    eligible — the claim's "overflow yields false" fails at this tip. -/
theorem c4_overflow_counterexample :
    2 ^ 64 ≤ evMax.block_number + 1 ∧
    ConfirmationDepth.is_eligible 1 evMax (2 ^ 64 - 1) = true := by
  constructor
  · decide
  · decide

/-- Claim C4 (amended): ConfirmationDepth(K).is_eligible(ev, tip) is true iff
    tip ≥ block_number + K under saturating u64 addition; when block_number + K
    overflows u64 the result is false for every tip except tip = 2^64 - 1 (where it
    is true); a Finalizer built without an explicit strategy uses
    ConfirmationDepth(6). -/
theorem c4_confirmation_depth_amended :
    (∀ (k : Nat) (ev : HeadUpdatedObserved) (tip : Nat),
      ConfirmationDepth.is_eligible k ev tip = true ↔
        satAdd64 ev.block_number k ≤ tip) ∧
    (∀ (k : Nat) (ev : HeadUpdatedObserved) (tip : Nat),
      tip < 2 ^ 64 → 2 ^ 64 ≤ ev.block_number + k →
      (ConfirmationDepth.is_eligible k ev tip = true ↔ tip = 2 ^ 64 - 1)) ∧
    (∀ (b : FinalizerBuilder) (f : Finalizer),
      b.strategy = none → b.build = .ok f →
      f.strategy = ConfirmationDepth.is_eligible 6) := by
  refine ⟨?_, ?_, ?_⟩
  · intro k ev tip
    simp [ConfirmationDepth.is_eligible]
  · intro k ev tip h1 h2
    simp only [ConfirmationDepth.is_eligible, decide_eq_true_eq, satAdd64, u64Max]
    omega
  · intro b f hs hb
    cases hu : b.http_url with
    | none =>
      simp only [FinalizerBuilder.build, hu] at hb
      cases hb
    | some url =>
      cases hc : b.contract_address with
      | none =>
        simp only [FinalizerBuilder.build, hu, hc] at hb
        cases hb
      | some addr =>
        simp only [FinalizerBuilder.build, hu, hc] at hb
        cases hb
        simp [hs]

theorem c4_confirmation_depth_amended_witness :
    (ConfirmationDepth.is_eligible 6 sampleEv 11 = true ↔
      satAdd64 sampleEv.block_number 6 ≤ 11) ∧
    ((5 : Nat) < 2 ^ 64 ∧ 2 ^ 64 ≤ evMax.block_number + 1) ∧
    (ConfirmationDepth.is_eligible 1 evMax 5 = true ↔ (5 : Nat) = 2 ^ 64 - 1) ∧
    (b0.strategy = none ∧ b0.build = .ok f0) ∧
    f0.strategy = ConfirmationDepth.is_eligible 6 :=
  ⟨c4_confirmation_depth_amended.1 6 sampleEv 11,
   ⟨by decide, by decide⟩,
   c4_confirmation_depth_amended.2.1 1 evMax 5 (by decide) (by decide),
   ⟨rfl, b0_build⟩,
   c4_confirmation_depth_amended.2.2 b0 f0 rfl b0_build⟩

/-- Claim C7: decoding the standard-calling-convention encoding of `(seq, cid)` with
    decode_head_return succeeds and returns exactly `(seq, cid)`, for every u64 seq
    and every machine-representable byte string cid. -/
theorem c7_decode_head_roundtrip (seq : Nat) (cid : List Nat)
    (h1 : seq < 2 ^ 64) (h2 : cid.length < 2 ^ 64) :
    decode_head_return (encodeHeadReturn seq cid) = .ok { seq := seq, cid := cid } := by
  simp only [decode_head_return]
  rw [alloyDecodeHeadReturn_encode seq cid h1 h2]

theorem c7_decode_head_roundtrip_witness :
    (3 : Nat) < 2 ^ 64 ∧ ([1, 2, 3] : List Nat).length < 2 ^ 64 ∧
    decode_head_return (encodeHeadReturn 3 [1, 2, 3]) = .ok { seq := 3, cid := [1, 2, 3] } :=
  ⟨by decide, by decide, c7_decode_head_roundtrip 3 [1, 2, 3] (by decide) (by decide)⟩

/-- Claim C8: the manual dynamic-bytes decoders (for the head() return and for the
    event data) succeed with the correct payload when the offset word is the canonical
    32 or the variant 64, and return a decode error whenever the declared length word
    exceeds the bytes available in the buffer. -/
theorem c8_offset_tolerance_and_length_guard :
    (∀ data : List Nat, 64 ≤ data.length →
      (beNat (sliceAt data 60 4) = 32 ∨ beNat (sliceAt data 60 4) = 64) →
      beNat (sliceAt data 60 4) + 32 +
        beNat (sliceAt data (beNat (sliceAt data 60 4) + 28) 4) ≤ data.length →
      decode_head_return_manual data = .ok
        { seq := beNat (sliceAt data 24 8)
          cid := sliceAt data (beNat (sliceAt data 60 4) + 32)
            (beNat (sliceAt data (beNat (sliceAt data 60 4) + 28) 4)) }) ∧
    (∀ data : List Nat, 32 ≤ data.length →
      (beNat (sliceAt data 28 4) = 32 ∨ beNat (sliceAt data 28 4) = 64) →
      beNat (sliceAt data 28 4) + 32 +
        beNat (sliceAt data (beNat (sliceAt data 28 4) + 28) 4) ≤ data.length →
      decode_event_data_bytes_manual data = .ok
        (sliceAt data (beNat (sliceAt data 28 4) + 32)
          (beNat (sliceAt data (beNat (sliceAt data 28 4) + 28) 4)))) ∧
    (∀ data : List Nat, 64 ≤ data.length →
      beNat (sliceAt data 60 4) + 32 ≤ data.length →
      data.length < beNat (sliceAt data 60 4) + 32 +
        beNat (sliceAt data (beNat (sliceAt data 60 4) + 28) 4) →
      decode_head_return_manual data = .error "head() return too short for cid") ∧
    (∀ data : List Nat, 32 ≤ data.length →
      beNat (sliceAt data 28 4) + 32 ≤ data.length →
      data.length < beNat (sliceAt data 28 4) + 32 +
        beNat (sliceAt data (beNat (sliceAt data 28 4) + 28) 4) →
      decode_event_data_bytes_manual data = .error "event data too short for cid len") :=
  ⟨fun data h _ hl => decode_head_return_manual_ok data h hl,
   fun data h _ hl => decode_event_data_bytes_manual_ok data h hl,
   decode_head_return_manual_err,
   decode_event_data_bytes_manual_err⟩

theorem c8_offset_tolerance_and_length_guard_witness :
    decode_head_return_manual dataH64 = .ok { seq := 7, cid := [170] } ∧
    decode_head_return_manual dataH32 = .ok { seq := 1, cid := List.replicate 32 7 } ∧
    decode_event_data_bytes_manual dataE32 = .ok [9, 9] ∧
    decode_event_data_bytes_manual dataE64 = .ok [5] ∧
    decode_head_return_manual dataHbad = .error "head() return too short for cid" ∧
    decode_event_data_bytes_manual dataEbad = .error "event data too short for cid len" :=
  ⟨(c8_offset_tolerance_and_length_guard.1 dataH64 (by decide) (by decide)
      (by decide)).trans (by rfl),
   (c8_offset_tolerance_and_length_guard.1 dataH32 (by decide) (by decide)
      (by decide)).trans (by rfl),
   (c8_offset_tolerance_and_length_guard.2.1 dataE32 (by decide) (by decide)
      (by decide)).trans (by rfl),
   (c8_offset_tolerance_and_length_guard.2.1 dataE64 (by decide) (by decide)
      (by decide)).trans (by rfl),
   c8_offset_tolerance_and_length_guard.2.2.1 dataHbad (by decide) (by decide) (by decide),
   c8_offset_tolerance_and_length_guard.2.2.2 dataEbad (by decide) (by decide) (by decide)⟩

/-- Claim C9: the stored head is updated to a candidate iff it is absent or the
    candidate's seq is ≥ the stored seq (and left unchanged otherwise), so the stored
    seq trace over any sequence of updates — backfill- or subscription-derived, both
    of which call set_current_head_if_newer — is non-decreasing. -/
theorem c9_monotone_head :
    (∀ (cur : Option CurrentHead) (cand : CurrentHead),
      set_current_head_if_newer cur cand = some cand ↔
        (cur = none ∨ ∃ h, cur = some h ∧ h.seq ≤ cand.seq)) ∧
    (∀ (cur : Option CurrentHead) (cand : CurrentHead),
      ¬(cur = none ∨ ∃ h, cur = some h ∧ h.seq ≤ cand.seq) →
      set_current_head_if_newer cur cand = cur) ∧
    (∀ (init : Option CurrentHead) (cands : List CurrentHead),
      List.Chain' (fun a b => headSeq a ≤ headSeq b)
        (List.scanl set_current_head_if_newer init cands)) := by
  refine ⟨?_, ?_, scanl_head_chain⟩
  · intro cur cand
    cases cur with
    | none => simp [set_current_head_if_newer]
    | some h =>
      by_cases hle : h.seq ≤ cand.seq
      · have hset : set_current_head_if_newer (some h) cand = some cand := by
          simp [set_current_head_if_newer, hle]
        rw [hset]
        exact ⟨fun _ => Or.inr ⟨h, rfl, hle⟩, fun _ => rfl⟩
      · have hset : set_current_head_if_newer (some h) cand = some h := by
          simp [set_current_head_if_newer, hle]
        rw [hset]
        constructor
        · intro heq
          have hh : h = cand := Option.some_inj.mp heq
          exact absurd (hh ▸ Nat.le_refl h.seq) (hh ▸ hle)
        · rintro (hnone | ⟨h', hh', hle'⟩)
          · exact absurd hnone (Option.some_ne_none h)
          · have : h' = h := (Option.some_inj.mp hh').symm
            subst this
            exact absurd hle' hle
  · intro cur cand hnot
    cases cur with
    | none => exact absurd (Or.inl rfl) hnot
    | some h =>
      have hgt : ¬h.seq ≤ cand.seq := fun hle => hnot (Or.inr ⟨h, rfl, hle⟩)
      simp [set_current_head_if_newer, hgt]

theorem c9_monotone_head_witness :
    (set_current_head_if_newer none { seq := 1, cid := [1] } =
        some { seq := 1, cid := [1] } ↔
      ((none : Option CurrentHead) = none ∨
        ∃ h, (none : Option CurrentHead) = some h ∧
          h.seq ≤ (CurrentHead.mk 1 [1]).seq)) ∧
    set_current_head_if_newer (some { seq := 5, cid := [5] }) { seq := 1, cid := [1] } =
      some { seq := 5, cid := [5] } ∧
    List.Chain' (fun a b => headSeq a ≤ headSeq b)
      (List.scanl set_current_head_if_newer none
        [{ seq := 1, cid := [1] }, { seq := 3, cid := [3] }, { seq := 2, cid := [2] }]) := by
  refine ⟨c9_monotone_head.1 none { seq := 1, cid := [1] }, ?_,
    c9_monotone_head.2.2 none _⟩
  refine c9_monotone_head.2.1 (some { seq := 5, cid := [5] }) { seq := 1, cid := [1] } ?_
  rintro (hnone | ⟨h, hh, hle⟩)
  · cases hnone
  · have : h = { seq := 5, cid := [5] } := (Option.some_inj.mp hh).symm
    subst this
    simp at hle

/-- Claim C10: the manual dynamic-bytes decoders accept any offset-word value
    whatsoever: for every data whose decoded offset o satisfies o + 32 ≤ length and
    o + 32 + declared-length ≤ length, decoding succeeds and returns the payload at
    o + 32 (so offsets like 96 are accepted rather than rejected). -/
theorem c10_manual_decoders_any_offset :
    (∀ data : List Nat, 64 ≤ data.length →
      beNat (sliceAt data 60 4) + 32 ≤ data.length →
      beNat (sliceAt data 60 4) + 32 +
        beNat (sliceAt data (beNat (sliceAt data 60 4) + 28) 4) ≤ data.length →
      decode_head_return_manual data = .ok
        { seq := beNat (sliceAt data 24 8)
          cid := sliceAt data (beNat (sliceAt data 60 4) + 32)
            (beNat (sliceAt data (beNat (sliceAt data 60 4) + 28) 4)) }) ∧
    (∀ data : List Nat, 32 ≤ data.length →
      beNat (sliceAt data 28 4) + 32 ≤ data.length →
      beNat (sliceAt data 28 4) + 32 +
        beNat (sliceAt data (beNat (sliceAt data 28 4) + 28) 4) ≤ data.length →
      decode_event_data_bytes_manual data = .ok
        (sliceAt data (beNat (sliceAt data 28 4) + 32)
          (beNat (sliceAt data (beNat (sliceAt data 28 4) + 28) 4)))) :=
  ⟨fun data h _ hl => decode_head_return_manual_ok data h hl,
   fun data h _ hl => decode_event_data_bytes_manual_ok data h hl⟩

theorem c10_manual_decoders_any_offset_witness :
    beNat (sliceAt dataH96 60 4) = 96 ∧
    decode_head_return_manual dataH96 = .ok { seq := 3, cid := [8] } ∧
    beNat (sliceAt dataE96 28 4) = 96 ∧
    decode_event_data_bytes_manual dataE96 = .ok [4, 4] :=
  ⟨by decide,
   (c10_manual_decoders_any_offset.1 dataH96 (by decide) (by decide)
      (by decide)).trans (by rfl),
   by decide,
   (c10_manual_decoders_any_offset.2 dataE96 (by decide) (by decide)
      (by decide)).trans (by rfl)⟩
